import Mathlib

/-!
Shallow embedding of the xav AV1 re-encoder core and verification of its
specification.  The embedding covers the pixel codec of src/ffms.rs
(pack_4_pix_10bit, unpack_4_pix_10bit, pack_10bit, unpack_10bit and the
chroma-location resolution), the decoder/skip layer of src/svt.rs
(dec_10bit, dec_8bit, decode_chunks, get_tile_params, get_max_chunk_size,
WorkerStats.add_completion) and the argument handling of src/main.rs
(apply_defaults, save_args, parse_quoted_args).  Machine integers are
modelled as Nat; u8 values carry explicit bounds below 256 in hypotheses,
and u32 wrap-around is written as an explicit remainder where the source
could overflow.  Byte buffers are lists of Nat.
-/

namespace Xav

/-! ## Bit-manipulation helper lemmas -/

/-- A bitwise or with a left-shifted value is plain addition when the
unshifted operand fits entirely below the shift amount. -/
theorem lor_shl_eq_add {k : Nat} (a b : Nat) (h : a < 2 ^ k) :
    a ||| (b <<< k) = a + b * 2 ^ k := by
  rw [Nat.shiftLeft_eq, Nat.lor_comm, Nat.mul_comm b (2 ^ k),
    ← Nat.mul_add_lt_is_or h b]
  ring

theorem lor_shl8 (a b : Nat) (h : a < 256) : a ||| (b <<< 8) = a + b * 256 := by
  have h2 : a < 2 ^ 8 := lt_of_lt_of_le h (by norm_num)
  have h3 := lor_shl_eq_add a b h2
  norm_num at h3
  exact h3

theorem lor_shl6 (a b : Nat) (h : a < 64) : a ||| (b <<< 6) = a + b * 64 := by
  have h2 : a < 2 ^ 6 := lt_of_lt_of_le h (by norm_num)
  have h3 := lor_shl_eq_add a b h2
  norm_num at h3
  exact h3

theorem lor_shl4 (a b : Nat) (h : a < 16) : a ||| (b <<< 4) = a + b * 16 := by
  have h2 : a < 2 ^ 4 := lt_of_lt_of_le h (by norm_num)
  have h3 := lor_shl_eq_add a b h2
  norm_num at h3
  exact h3

theorem lor_shl2 (a b : Nat) (h : a < 4) : a ||| (b <<< 2) = a + b * 4 := by
  have h2 : a < 2 ^ 2 := lt_of_lt_of_le h (by norm_num)
  have h3 := lor_shl_eq_add a b h2
  norm_num at h3
  exact h3

theorem land_1023 (x : Nat) : x &&& 1023 = x % 1024 := by
  have h := Nat.and_pow_two_sub_one_eq_mod x 10
  norm_num at h
  exact h

theorem land_255 (x : Nat) : x &&& 255 = x % 256 := by
  have h := Nat.and_pow_two_sub_one_eq_mod x 8
  norm_num at h
  exact h

theorem land_63 (x : Nat) : x &&& 63 = x % 64 := by
  have h := Nat.and_pow_two_sub_one_eq_mod x 6
  norm_num at h
  exact h

theorem land_15 (x : Nat) : x &&& 15 = x % 16 := by
  have h := Nat.and_pow_two_sub_one_eq_mod x 4
  norm_num at h
  exact h

theorem land_3 (x : Nat) : x &&& 3 = x % 4 := by
  have h := Nat.and_pow_two_sub_one_eq_mod x 2
  norm_num at h
  exact h

theorem shr8 (x : Nat) : x >>> 8 = x / 256 := by
  have h := Nat.shiftRight_eq_div_pow x 8
  norm_num at h
  exact h

theorem shr6 (x : Nat) : x >>> 6 = x / 64 := by
  have h := Nat.shiftRight_eq_div_pow x 6
  norm_num at h
  exact h

theorem shr4 (x : Nat) : x >>> 4 = x / 16 := by
  have h := Nat.shiftRight_eq_div_pow x 4
  norm_num at h
  exact h

theorem shr2 (x : Nat) : x >>> 2 = x / 4 := by
  have h := Nat.shiftRight_eq_div_pow x 2
  norm_num at h
  exact h

/-! ## Pixel codec (src/ffms.rs) -/

/-- Model of ffms.rs pack_4_pix_10bit: four 10-bit samples held in the low
bits of four little-endian 16-bit words (8 input bytes) are packed into
5 output bytes.  The fallback branch mirrors the impossibility of an input
shorter than the fixed-size array type of the source. -/
def pack_4_pix_10bit : List Nat → List Nat
  | i0 :: i1 :: i2 :: i3 :: i4 :: i5 :: i6 :: i7 :: _ =>
    let p0 := (i0 ||| (i1 <<< 8)) &&& 1023
    let p1 := (i2 ||| (i3 <<< 8)) &&& 1023
    let p2 := (i4 ||| (i5 <<< 8)) &&& 1023
    let p3 := (i6 ||| (i7 <<< 8)) &&& 1023
    [(p0 &&& 255) % 256,
     ((p0 >>> 8) ||| ((p1 &&& 63) <<< 2)) % 256,
     ((p1 >>> 6) ||| ((p2 &&& 15) <<< 4)) % 256,
     ((p2 >>> 4) ||| ((p3 &&& 3) <<< 6)) % 256,
     (p3 >>> 2) % 256]
  | _ => [0, 0, 0, 0, 0]

/-- Model of ffms.rs unpack_4_pix_10bit: 5 packed bytes are expanded back
into four little-endian 16-bit words (8 output bytes). -/
def unpack_4_pix_10bit : List Nat → List Nat
  | i0 :: i1 :: i2 :: i3 :: i4 :: _ =>
    let p0 := i0 ||| ((i1 &&& 3) <<< 8)
    let p1 := (i1 >>> 2) ||| ((i2 &&& 15) <<< 6)
    let p2 := (i2 >>> 4) ||| ((i3 &&& 63) <<< 4)
    let p3 := (i3 >>> 6) ||| (i4 <<< 2)
    [p0 % 256, (p0 >>> 8) % 256,
     p1 % 256, (p1 >>> 8) % 256,
     p2 % 256, (p2 >>> 8) % 256,
     p3 % 256, (p3 >>> 8) % 256]
  | _ => [0, 0, 0, 0, 0, 0, 0, 0]

/-- Arithmetic description of pack_4_pix_10bit on an 8-byte group, writing
each output byte as a sum of bit fields: with the 10-bit words
pk = (lo + 256 hi) mod 1024, byte 0 is the low 8 bits of p0, byte 1 joins
the top 2 bits of p0 with the low 6 bits of p1 shifted up by 2, and so on. -/
theorem pack_4_pix_10bit_arith (l0 h0 l1 h1 l2 h2 l3 h3 : Nat)
    (c0 : l0 < 256) (_c1 : h0 < 256) (c2 : l1 < 256) (_c3 : h1 < 256)
    (c4 : l2 < 256) (_c5 : h2 < 256) (c6 : l3 < 256) (_c7 : h3 < 256) :
    pack_4_pix_10bit [l0, h0, l1, h1, l2, h2, l3, h3] =
      [((l0 + 256 * h0) % 1024) % 256,
       ((l0 + 256 * h0) % 1024) / 256 + (((l1 + 256 * h1) % 1024) % 64) * 4,
       ((l1 + 256 * h1) % 1024) / 64 + (((l2 + 256 * h2) % 1024) % 16) * 16,
       ((l2 + 256 * h2) % 1024) / 16 + (((l3 + 256 * h3) % 1024) % 4) * 64,
       ((l3 + 256 * h3) % 1024) / 4] := by
  simp only [pack_4_pix_10bit]
  rw [lor_shl8 l0 h0 c0, lor_shl8 l1 h1 c2, lor_shl8 l2 h2 c4, lor_shl8 l3 h3 c6]
  simp only [land_1023, land_255, land_63, land_15, land_3, shr8, shr6, shr4, shr2]
  rw [lor_shl2 _ _ (by omega), lor_shl4 _ _ (by omega), lor_shl6 _ _ (by omega)]
  simp only [List.cons.injEq, and_true]
  omega

/-- Arithmetic description of unpack_4_pix_10bit on a 5-byte group. -/
theorem unpack_4_pix_10bit_arith (b0 b1 b2 b3 b4 : Nat)
    (c0 : b0 < 256) (c1 : b1 < 256) (c2 : b2 < 256) (c3 : b3 < 256)
    (_c4 : b4 < 256) :
    unpack_4_pix_10bit [b0, b1, b2, b3, b4] =
      [(b0 + (b1 % 4) * 256) % 256, ((b0 + (b1 % 4) * 256) / 256) % 256,
       (b1 / 4 + (b2 % 16) * 64) % 256, ((b1 / 4 + (b2 % 16) * 64) / 256) % 256,
       (b2 / 16 + (b3 % 64) * 16) % 256, ((b2 / 16 + (b3 % 64) * 16) / 256) % 256,
       (b3 / 64 + b4 * 4) % 256, ((b3 / 64 + b4 * 4) / 256) % 256] := by
  simp only [unpack_4_pix_10bit]
  simp only [land_63, land_15, land_3]
  rw [lor_shl8 _ _ (by omega), lor_shl6 _ _ (by omega), lor_shl4 _ _ (by omega),
    lor_shl2 _ _ (by omega)]
  simp only [shr8, shr6, shr4, shr2]

/-- Length of a packed group is always 5 bytes. -/
theorem length_pack_4_pix (l : List Nat) : (pack_4_pix_10bit l).length = 5 := by
  unfold pack_4_pix_10bit
  split <;> rfl

/-- Length of an unpacked group is always 8 bytes. -/
theorem length_unpack_4_pix (l : List Nat) : (unpack_4_pix_10bit l).length = 8 := by
  unfold unpack_4_pix_10bit
  split <;> rfl

/-- Unpacking a packed 4-sample group restores the group, provided every
sample is a 10-bit value stored little-endian (low byte below 256, high
byte below 4). -/
theorem unpack_pack_group (l0 h0 l1 h1 l2 h2 l3 h3 : Nat)
    (c0 : l0 < 256) (c1 : h0 < 4) (c2 : l1 < 256) (c3 : h1 < 4)
    (c4 : l2 < 256) (c5 : h2 < 4) (c6 : l3 < 256) (c7 : h3 < 4) :
    unpack_4_pix_10bit (pack_4_pix_10bit [l0, h0, l1, h1, l2, h2, l3, h3]) =
      [l0, h0, l1, h1, l2, h2, l3, h3] := by
  rw [pack_4_pix_10bit_arith l0 h0 l1 h1 l2 h2 l3 h3 c0 (by omega) c2 (by omega)
    c4 (by omega) c6 (by omega)]
  rw [unpack_4_pix_10bit_arith _ _ _ _ _ (by omega) (by omega) (by omega)
    (by omega) (by omega)]
  simp only [List.cons.injEq, and_true]
  omega

/-- Packing an unpacked 5-byte group restores the group, for arbitrary
byte values. -/
theorem pack_unpack_group (b0 b1 b2 b3 b4 : Nat)
    (c0 : b0 < 256) (c1 : b1 < 256) (c2 : b2 < 256) (c3 : b3 < 256)
    (c4 : b4 < 256) :
    pack_4_pix_10bit (unpack_4_pix_10bit [b0, b1, b2, b3, b4]) =
      [b0, b1, b2, b3, b4] := by
  rw [unpack_4_pix_10bit_arith b0 b1 b2 b3 b4 c0 c1 c2 c3 c4]
  rw [pack_4_pix_10bit_arith _ _ _ _ _ _ _ _ (by omega) (by omega) (by omega)
    (by omega) (by omega) (by omega) (by omega) (by omega)]
  simp only [List.cons.injEq, and_true]
  omega

/-- In-place write of a run of bytes at a position of a buffer, used to
model writes through raw output pointers. -/
def listWrite (out : List Nat) (pos : Nat) (vals : List Nat) : List Nat :=
  out.take pos ++ vals ++ out.drop (pos + vals.length)

/-- The main loop of pack_10bit: pack n consecutive 8-byte groups. -/
def packGroups : Nat → List Nat → List Nat
  | 0, _ => []
  | n + 1, input => pack_4_pix_10bit (input.take 8) ++ packGroups n (input.drop 8)

/-- The main loop of unpack_10bit: unpack n consecutive 5-byte groups. -/
def unpackGroups : Nat → List Nat → List Nat
  | 0, _ => []
  | n + 1, input => unpack_4_pix_10bit (input.take 5) ++ unpackGroups n (input.drop 5)

/-- Model of ffms.rs pack_10bit: packs as many full 8-byte groups as both
buffers allow, then packs a zero-padded trailing partial group in place.
The output buffer keeps its old bytes past the written region. -/
def pack_10bit (input output : List Nat) : List Nat :=
  let num_chunks := min (input.length / 8) (output.length / 5)
  let base := packGroups num_chunks input ++ output.drop (5 * num_chunks)
  if input.length % 8 = 0 then base
  else
    listWrite base (5 * num_chunks)
      (pack_4_pix_10bit ((input.drop (8 * num_chunks)).take (input.length % 8) ++
        List.replicate (8 - input.length % 8) 0))

/-- Model of ffms.rs unpack_10bit: unpacks as many full 5-byte groups as
both buffers allow; there is no partial-group handling. -/
def unpack_10bit (input output : List Nat) : List Nat :=
  let num_chunks := min (input.length / 5) (output.length / 8)
  unpackGroups num_chunks input ++ output.drop (8 * num_chunks)

/-- A byte list is a well-formed 10-bit little-endian sample stream: bytes
alternate between an arbitrary low byte and a high byte below 4. -/
def valid10bit : List Nat → Bool
  | [] => true
  | lo :: hi :: rest => decide (lo < 256) && decide (hi < 4) && valid10bit rest
  | _ => false

theorem packGroups_length : ∀ (k : Nat) (input : List Nat),
    (packGroups k input).length = 5 * k := by
  intro k
  induction k with
  | zero => intro input; rfl
  | succ n ih =>
    intro input
    simp only [packGroups, List.length_append, length_pack_4_pix, ih]
    omega

/-- An aligned call of pack_10bit (input of k full groups, output buffer of
exactly 5 k bytes) is exactly the group-packing loop. -/
theorem pack_10bit_aligned (k : Nat) (input output : List Nat)
    (hi : input.length = 8 * k) (ho : output.length = 5 * k) :
    pack_10bit input output = packGroups k input := by
  simp only [pack_10bit]
  rw [hi, ho]
  have h1 : min (8 * k / 8) (5 * k / 5) = k := by omega
  rw [h1, if_pos (by omega)]
  rw [List.drop_eq_nil_of_le (by omega)]
  exact List.append_nil _

/-- An aligned call of unpack_10bit is exactly the group-unpacking loop. -/
theorem unpack_10bit_aligned (k : Nat) (input output : List Nat)
    (hi : input.length = 5 * k) (ho : output.length = 8 * k) :
    unpack_10bit input output = unpackGroups k input := by
  simp only [unpack_10bit]
  rw [hi, ho]
  have h1 : min (5 * k / 5) (8 * k / 8) = k := by omega
  rw [h1]
  rw [List.drop_eq_nil_of_le (by omega)]
  exact List.append_nil _

theorem take8_cons (a0 a1 a2 a3 a4 a5 a6 a7 : Nat) (t : List Nat) :
    (a0 :: a1 :: a2 :: a3 :: a4 :: a5 :: a6 :: a7 :: t).take 8 =
      [a0, a1, a2, a3, a4, a5, a6, a7] := rfl

theorem drop8_cons (a0 a1 a2 a3 a4 a5 a6 a7 : Nat) (t : List Nat) :
    (a0 :: a1 :: a2 :: a3 :: a4 :: a5 :: a6 :: a7 :: t).drop 8 = t := rfl

/-- Unpacking the packed form of k full groups of a well-formed 10-bit
stream restores the stream. -/
theorem unpackGroups_packGroups : ∀ (k : Nat) (input : List Nat),
    valid10bit input = true → input.length = 8 * k →
    unpackGroups k (packGroups k input) = input := by
  intro k
  induction k with
  | zero =>
    intro input _ hlen
    have h0 : input = [] := by
      cases input with
      | nil => rfl
      | cons a r => simp at hlen
    subst h0
    rfl
  | succ n ih =>
    intro input hv hlen
    rcases input with _ | ⟨a0, input⟩
    · simp at hlen
    rcases input with _ | ⟨a1, input⟩
    · simp at hlen; omega
    rcases input with _ | ⟨a2, input⟩
    · simp at hlen; omega
    rcases input with _ | ⟨a3, input⟩
    · simp at hlen; omega
    rcases input with _ | ⟨a4, input⟩
    · simp at hlen; omega
    rcases input with _ | ⟨a5, input⟩
    · simp at hlen; omega
    rcases input with _ | ⟨a6, input⟩
    · simp at hlen; omega
    rcases input with _ | ⟨a7, input⟩
    · simp at hlen; omega
    simp only [valid10bit, Bool.and_eq_true, decide_eq_true_eq] at hv
    have hb0 : a0 < 256 := by tauto
    have hb1 : a1 < 4 := by tauto
    have hb2 : a2 < 256 := by tauto
    have hb3 : a3 < 4 := by tauto
    have hb4 : a4 < 256 := by tauto
    have hb5 : a5 < 4 := by tauto
    have hb6 : a6 < 256 := by tauto
    have hb7 : a7 < 4 := by tauto
    have hrest : valid10bit input = true := by tauto
    have hlen8 : input.length = 8 * n := by
      simp only [List.length_cons] at hlen
      omega
    simp only [packGroups, unpackGroups, take8_cons, drop8_cons]
    rw [List.take_left' (length_pack_4_pix _), List.drop_left' (length_pack_4_pix _)]
    rw [unpack_pack_group a0 a1 a2 a3 a4 a5 a6 a7 hb0 hb1 hb2 hb3 hb4 hb5 hb6 hb7]
    rw [ih input hrest hlen8]
    rfl

/-- C1: pack_4_pix_10bit and unpack_4_pix_10bit are mutually inverse
bijections between 8-byte 10-bit 4-sample groups and 5-byte packed groups,
and pack_10bit followed by unpack_10bit is the identity on aligned full
groups of a 10-bit sample stream. -/
theorem pack_unpack_bijection :
    (∀ l0 h0 l1 h1 l2 h2 l3 h3 : Nat, l0 < 256 → h0 < 4 → l1 < 256 → h1 < 4 →
      l2 < 256 → h2 < 4 → l3 < 256 → h3 < 4 →
      unpack_4_pix_10bit (pack_4_pix_10bit [l0, h0, l1, h1, l2, h2, l3, h3]) =
        [l0, h0, l1, h1, l2, h2, l3, h3]) ∧
    (∀ b0 b1 b2 b3 b4 : Nat, b0 < 256 → b1 < 256 → b2 < 256 → b3 < 256 →
      b4 < 256 →
      pack_4_pix_10bit (unpack_4_pix_10bit [b0, b1, b2, b3, b4]) =
        [b0, b1, b2, b3, b4]) ∧
    (∀ (k : Nat) (input out5 out8 : List Nat), valid10bit input = true →
      input.length = 8 * k → out5.length = 5 * k → out8.length = 8 * k →
      unpack_10bit (pack_10bit input out5) out8 = input) := by
  refine ⟨?_, ?_, ?_⟩
  · intro l0 h0 l1 h1 l2 h2 l3 h3 c0 c1 c2 c3 c4 c5 c6 c7
    exact unpack_pack_group l0 h0 l1 h1 l2 h2 l3 h3 c0 c1 c2 c3 c4 c5 c6 c7
  · intro b0 b1 b2 b3 b4 c0 c1 c2 c3 c4
    exact pack_unpack_group b0 b1 b2 b3 b4 c0 c1 c2 c3 c4
  · intro k input out5 out8 hv hlen h5 h8
    rw [pack_10bit_aligned k input out5 hlen h5]
    rw [unpack_10bit_aligned k (packGroups k input) out8 (packGroups_length k input) h8]
    exact unpackGroups_packGroups k input hv hlen

/-- Witness for C1 at a concrete two-group stream. -/
theorem pack_unpack_bijection_witness :
    unpack_10bit
        (pack_10bit [250, 3, 0, 0, 17, 1, 255, 0, 1, 2, 3, 0, 9, 1, 0, 0]
          [0, 0, 0, 0, 0, 0, 0, 0, 0, 0])
        [7, 7, 7, 7, 7, 7, 7, 7, 7, 7, 7, 7, 7, 7, 7, 7] =
      [250, 3, 0, 0, 17, 1, 255, 0, 1, 2, 3, 0, 9, 1, 0, 0] :=
  pack_unpack_bijection.2.2 2
    [250, 3, 0, 0, 17, 1, 255, 0, 1, 2, 3, 0, 9, 1, 0, 0]
    [0, 0, 0, 0, 0, 0, 0, 0, 0, 0]
    [7, 7, 7, 7, 7, 7, 7, 7, 7, 7, 7, 7, 7, 7, 7, 7]
    (by decide) (by decide) (by decide) (by decide)

/-- C4: pack_4_pix_10bit produces exactly the five tabulated bytes; with
pk the 10-bit value of input word k, byte 0 is the low 8 bits of p0,
byte 1 is the top 2 bits of p0 joined with the low 6 bits of p1 shifted
left by 2, byte 2 joins the top 4 bits of p1 with the low 4 bits of p2
shifted left by 4, byte 3 joins the top 6 bits of p2 with the low 2 bits
of p3 shifted left by 6, byte 4 is the top 8 bits of p3. -/
theorem pack_4_pix_10bit_formula (l0 h0 l1 h1 l2 h2 l3 h3 : Nat)
    (c0 : l0 < 256) (c1 : h0 < 256) (c2 : l1 < 256) (c3 : h1 < 256)
    (c4 : l2 < 256) (c5 : h2 < 256) (c6 : l3 < 256) (c7 : h3 < 256) :
    pack_4_pix_10bit [l0, h0, l1, h1, l2, h2, l3, h3] =
      [((l0 + 256 * h0) % 1024) % 256,
       ((l0 + 256 * h0) % 1024) / 256 + (((l1 + 256 * h1) % 1024) % 64) * 4,
       ((l1 + 256 * h1) % 1024) / 64 + (((l2 + 256 * h2) % 1024) % 16) * 16,
       ((l2 + 256 * h2) % 1024) / 16 + (((l3 + 256 * h3) % 1024) % 4) * 64,
       ((l3 + 256 * h3) % 1024) / 4] :=
  pack_4_pix_10bit_arith l0 h0 l1 h1 l2 h2 l3 h3 c0 c1 c2 c3 c4 c5 c6 c7

/-- Witness for C4 at a concrete 4-sample group. -/
theorem pack_4_pix_10bit_formula_witness :
    pack_4_pix_10bit [255, 3, 18, 1, 255, 2, 7, 0] =
      [((255 + 256 * 3) % 1024) % 256,
       ((255 + 256 * 3) % 1024) / 256 + (((18 + 256 * 1) % 1024) % 64) * 4,
       ((18 + 256 * 1) % 1024) / 64 + (((255 + 256 * 2) % 1024) % 16) * 16,
       ((255 + 256 * 2) % 1024) / 16 + (((7 + 256 * 0) % 1024) % 4) * 64,
       ((7 + 256 * 0) % 1024) / 4] :=
  pack_4_pix_10bit_formula 255 3 18 1 255 2 7 0 (by decide) (by decide)
    (by decide) (by decide) (by decide) (by decide) (by decide) (by decide)

/-! ## Decoder layer and resume bookkeeping (src/svt.rs) -/

/-- A chunk of frames; the source field named end is modelled as stop. -/
structure Chunk where
  start : Nat
  stop : Nat
  idx : Nat
deriving DecidableEq

/-- In-flight payload sent from the decoder to a worker. -/
structure ChunkData where
  idx : Nat
  frames : List (List Nat)
deriving DecidableEq

/-- Completion record appended to the resume store (chunk.rs ChunkComp,
fields read off its uses in svt.rs). -/
structure ChunkComp where
  idx : Nat
  frames : Nat
  size : Nat
deriving DecidableEq

/-- Resume store contents (chunk.rs ResumeInf). -/
structure ResumeInf where
  chnks_done : List ChunkComp
deriving DecidableEq

/-- Model of WorkerStats.add_completion of svt.rs: pushes the completion
onto the stored list unconditionally (the save_resume disk flush carries
no data-model content and is not modelled). -/
def add_completion (r : ResumeInf) (completion : ChunkComp) : ResumeInf :=
  ⟨r.chnks_done ++ [completion]⟩

/-- The skip set computed by encode_all of svt.rs: the indices of all
recorded completions. -/
def skip_set (r : ResumeInf) : List Nat :=
  r.chnks_done.map ChunkComp.idx

/-- Model of get_tile_params of svt.rs. -/
def get_tile_params (width height : Nat) : String × String :=
  let is_vertical := height > width
  if width.max height ≤ 1080 then ("0", "0")
  else if width.max height ≤ 2160 then
    if is_vertical then ("0", "1") else ("1", "0")
  else
    if is_vertical then ("0", "2") else ("2", "0")

/-- Model of get_max_chunk_size of svt.rs; the u32 arithmetic wraps at
2 to the 32. -/
def get_max_chunk_size (fps_num fps_den : Nat) : Nat :=
  min (((fps_num * 10) % 4294967296 + fps_den / 2) % 4294967296 / fps_den) 300

/-- The inner frame loop of dec_10bit of svt.rs over one chunk: frame
extraction is an oracle from frame index to the raw 10-bit frame bytes
(frame extraction goes through the foreign decoder library); a successful frame is
packed in place into buffer slot i and counted, a failure leaves the slot
untouched.  Returns the valid counter and the updated buffer pool. -/
def decChunk10 (ext : Nat → Option (List Nat)) (start stop : Nat)
    (bufs : List (List Nat)) : Nat × List (List Nat) :=
  (List.range (stop - start)).foldl
    (fun vb i =>
      match ext (start + i) with
      | none => vb
      | some raw => (vb.1 + 1, vb.2.set i (pack_10bit raw (vb.2.getD i []))))
    (0, bufs)

/-- The inner frame loop of dec_8bit of svt.rs over one chunk: a
successful extraction writes the raw 8-bit frame into buffer slot i. -/
def decChunk8 (ext : Nat → Option (List Nat)) (start stop : Nat)
    (bufs : List (List Nat)) : Nat × List (List Nat) :=
  (List.range (stop - start)).foldl
    (fun vb i =>
      match ext (start + i) with
      | none => vb
      | some raw => (vb.1 + 1, vb.2.set i raw))
    (0, bufs)

/-- Model of dec_10bit of svt.rs: per chunk, run the frame loop and, when
at least one frame was valid, send the first valid buffers.  Returns the
list of sent ChunkData (in send order) and the final buffer pool, which
persists across chunks exactly as the reused frames_buffer does. -/
def dec_10bit : List Chunk → (Nat → Option (List Nat)) → List (List Nat) →
    List ChunkData × List (List Nat)
  | [], _, bufs => ([], bufs)
  | c :: rest, ext, bufs =>
    let r1 := decChunk10 ext c.start c.stop bufs
    let r2 := dec_10bit rest ext r1.2
    (if r1.1 > 0 then ⟨c.idx, r1.2.take r1.1⟩ :: r2.1 else r2.1, r2.2)

/-- Model of dec_8bit of svt.rs. -/
def dec_8bit : List Chunk → (Nat → Option (List Nat)) → List (List Nat) →
    List ChunkData × List (List Nat)
  | [], _, bufs => ([], bufs)
  | c :: rest, ext, bufs =>
    let r1 := decChunk8 ext c.start c.stop bufs
    let r2 := dec_8bit rest ext r1.2
    (if r1.1 > 0 then ⟨c.idx, r1.2.take r1.1⟩ :: r2.1 else r2.1, r2.2)

/-- Model of decode_chunks of svt.rs: when opening the threaded video
source fails nothing is sent; otherwise chunks whose idx is in the skip
set are filtered out and the remaining ones are decoded at the source
depth.  Returns the list of sent ChunkData. -/
def decode_chunks (chunks : List Chunk) (src_ok : Bool) (is_10bit : Bool)
    (ext : Nat → Option (List Nat)) (bufs : List (List Nat))
    (skip_indices : List Nat) : List ChunkData :=
  if src_ok then
    let filtered := chunks.filter (fun c => !(skip_indices.contains c.idx))
    if is_10bit then (dec_10bit filtered ext bufs).1
    else (dec_8bit filtered ext bufs).1
  else []

/-- Extraction oracle for the C2 failing input: frame 0 fails, frame 1
succeeds with a concrete 10-bit frame. -/
def extStale : Nat → Option (List Nat) :=
  fun n => if n = 1 then some [1, 0, 1, 0, 1, 0, 1, 0] else none

/-- C2: evaluation of the decoder tasks at a chunk whose first frame fails
and whose second frame extracts successfully.  The successfully extracted
frame packs to [1, 4, 16, 64, 0], yet the sent ChunkData contains only the
stale buffer slot 0 contents [9, 9, 9, 9, 9]: the extracted frame is
dropped and a never-written buffer is sent, for both dec_10bit and
dec_8bit.  This contradicts the claim that exactly the successfully
extracted frames are sent. -/
theorem dec_stale_buffer_sent :
    (dec_10bit [⟨0, 2, 0⟩] extStale [[9, 9, 9, 9, 9], [8, 8, 8, 8, 8]]).1 =
        [⟨0, [[9, 9, 9, 9, 9]]⟩] ∧
    pack_10bit [1, 0, 1, 0, 1, 0, 1, 0] [8, 8, 8, 8, 8] = [1, 4, 16, 64, 0] ∧
    (dec_8bit [⟨0, 2, 0⟩] extStale [[9, 9, 9, 9, 9], [8, 8, 8, 8, 8]]).1 =
        [⟨0, [[9, 9, 9, 9, 9]]⟩] ∧
    ([[9, 9, 9, 9, 9]] : List (List Nat)) ≠ [[1, 4, 16, 64, 0]] := by
  refine ⟨by decide, by decide, by decide, by decide⟩

/-- C3 counterexample: appending the same completion twice through
add_completion leaves two records with that idx, not at most one. -/
theorem add_completion_duplicate :
    ¬ ((add_completion (add_completion ⟨[]⟩ ⟨0, 5, 100⟩) ⟨0, 5, 100⟩).chnks_done.countP
        (fun c => c.idx == 0) ≤ 1) := by
  decide

/-- C3 amended: add_completion appends unconditionally, so after any
sequence of appends the number of stored records with a given idx equals
the initial count plus the number of appended completions with that idx;
in particular a duplicate append yields a duplicate record. -/
theorem add_completion_append_count (r : ResumeInf) (l : List ChunkComp) (i : Nat) :
    (l.foldl add_completion r).chnks_done.countP (fun c => c.idx == i) =
      r.chnks_done.countP (fun c => c.idx == i) +
        l.countP (fun c => c.idx == i) := by
  induction l generalizing r with
  | nil => simp
  | cons c t ih =>
    simp only [List.foldl_cons, List.countP_cons]
    rw [ih (add_completion r c)]
    simp only [add_completion, List.countP_append, List.countP_cons, List.countP_nil]
    omega

/-- Every ChunkData sent by dec_10bit carries the idx of one of its input
chunks. -/
theorem dec_10bit_idx_mem : ∀ (chunks : List Chunk)
    (ext : Nat → Option (List Nat)) (bufs : List (List Nat)) (d : ChunkData),
    d ∈ (dec_10bit chunks ext bufs).1 → ∃ c ∈ chunks, d.idx = c.idx := by
  intro chunks
  induction chunks with
  | nil => intro ext bufs d hd; simp [dec_10bit] at hd
  | cons c rest ih =>
    intro ext bufs d hd
    simp only [dec_10bit] at hd
    split at hd
    · rcases List.mem_cons.mp hd with h | h
      · exact ⟨c, List.mem_cons_self c rest, by rw [h]⟩
      · obtain ⟨c2, hc2, he⟩ := ih ext _ d h
        exact ⟨c2, List.mem_cons_of_mem c hc2, he⟩
    · obtain ⟨c2, hc2, he⟩ := ih ext _ d hd
      exact ⟨c2, List.mem_cons_of_mem c hc2, he⟩

/-- Every ChunkData sent by dec_8bit carries the idx of one of its input
chunks. -/
theorem dec_8bit_idx_mem : ∀ (chunks : List Chunk)
    (ext : Nat → Option (List Nat)) (bufs : List (List Nat)) (d : ChunkData),
    d ∈ (dec_8bit chunks ext bufs).1 → ∃ c ∈ chunks, d.idx = c.idx := by
  intro chunks
  induction chunks with
  | nil => intro ext bufs d hd; simp [dec_8bit] at hd
  | cons c rest ih =>
    intro ext bufs d hd
    simp only [dec_8bit] at hd
    split at hd
    · rcases List.mem_cons.mp hd with h | h
      · exact ⟨c, List.mem_cons_self c rest, by rw [h]⟩
      · obtain ⟨c2, hc2, he⟩ := ih ext _ d h
        exact ⟨c2, List.mem_cons_of_mem c hc2, he⟩
    · obtain ⟨c2, hc2, he⟩ := ih ext _ d hd
      exact ⟨c2, List.mem_cons_of_mem c hc2, he⟩

/-- C5: the indices of the ChunkData records sent by decode_chunks are
disjoint from the skip set computed from the resume completions. -/
theorem decode_chunks_skip_disjoint (chunks : List Chunk)
    (src_ok is10 : Bool) (ext : Nat → Option (List Nat))
    (bufs : List (List Nat)) (r : ResumeInf) (d : ChunkData)
    (hd : d ∈ decode_chunks chunks src_ok is10 ext bufs (skip_set r)) :
    d.idx ∉ skip_set r := by
  unfold decode_chunks at hd
  split at hd
  · have hmem : ∃ c ∈ chunks.filter (fun c => !((skip_set r).contains c.idx)),
        d.idx = c.idx := by
      split at hd
      · exact dec_10bit_idx_mem _ ext bufs d hd
      · exact dec_8bit_idx_mem _ ext bufs d hd
    obtain ⟨c, hc, he⟩ := hmem
    have hp := (List.mem_filter.mp hc).2
    rw [he]
    simp at hp
    exact hp
  · simp at hd

/-- Witness for C5: a concrete run where chunk 3 is sent and the skip set
holds idx 7. -/
theorem decode_chunks_skip_disjoint_witness :
    (⟨3, [[1, 4, 16, 64, 0]]⟩ : ChunkData).idx ∉ skip_set ⟨[⟨7, 1, 1⟩]⟩ :=
  decode_chunks_skip_disjoint [⟨0, 1, 3⟩] true true
    (fun _ => some [1, 0, 1, 0, 1, 0, 1, 0]) [[0, 0, 0, 0, 0]]
    ⟨[⟨7, 1, 1⟩]⟩ ⟨3, [[1, 4, 16, 64, 0]]⟩ (by decide)

/-- C6: for width different from height, get_tile_params returns exactly
the tabulated tile parameters: (0,0) up to 1080, one split along the long
edge between 1081 and 2160, two splits above 2160, with the split axis
following the orientation. -/
theorem get_tile_params_table (w h : Nat) (hne : w ≠ h) :
    (w.max h ≤ 1080 → get_tile_params w h = ("0", "0")) ∧
    (1081 ≤ w.max h → w.max h ≤ 2160 →
      get_tile_params w h = if w > h then ("1", "0") else ("0", "1")) ∧
    (2161 ≤ w.max h →
      get_tile_params w h = if w > h then ("2", "0") else ("0", "2")) := by
  refine ⟨?_, ?_, ?_⟩
  · intro h1
    simp only [get_tile_params]
    rw [if_pos h1]
  · intro h1 h2
    simp only [get_tile_params]
    rw [if_neg (by omega), if_pos h2]
    by_cases hv : w < h
    · rw [if_pos hv, if_neg (by omega)]
    · rw [if_neg hv, if_pos (by omega)]
  · intro h1
    simp only [get_tile_params]
    rw [if_neg (by omega), if_neg (by omega)]
    by_cases hv : w < h
    · rw [if_pos hv, if_neg (by omega)]
    · rw [if_neg hv, if_pos (by omega)]

/-- Witness for C6 at 2160 x 1080 (landscape, long edge between 1081 and
2160). -/
theorem get_tile_params_table_witness : get_tile_params 2160 1080 = ("1", "0") := by
  have h := (get_tile_params_table 2160 1080 (by decide)).2.1 (by decide) (by decide)
  simpa using h

/-- C7: for a positive denominator and u32-representable numerator
arithmetic, get_max_chunk_size equals the minimum of 300 and the rational
ten-times-fps rounded to the nearest integer (ties rounded up). -/
theorem get_max_chunk_size_round (n d : Nat) (h1 : 1 ≤ d)
    (h2 : n * 10 + d / 2 < 4294967296) :
    get_max_chunk_size n d = min 300 (round ((10 * n : ℚ) / (d : ℚ))).toNat := by
  unfold get_max_chunk_size
  rw [Nat.mod_eq_of_lt (show n * 10 < 4294967296 by omega),
    Nat.mod_eq_of_lt (show n * 10 + d / 2 < 4294967296 by omega)]
  have hd0 : (d : ℚ) ≠ 0 := Nat.cast_ne_zero.mpr (by omega)
  have hx : (10 * n : ℚ) / (d : ℚ) + 1 / 2 =
      ((20 * n + d : ℕ) : ℚ) / ((2 * d : ℕ) : ℚ) := by
    push_cast
    field_simp
    ring
  rw [round_eq, hx, Rat.floor_natCast_div_natCast]
  have e3 : (20 * n + d) / (2 * d) = (n * 10 + d / 2) / d := by
    rw [← Nat.div_div_eq_div_mul]
    congr 1
    omega
  rw [← Int.natCast_div, Int.toNat_natCast, e3, Nat.min_comm]

/-- Witness for C7 at 24000/1001 fps. -/
theorem get_max_chunk_size_round_witness :
    get_max_chunk_size 24000 1001 =
      min 300 (round ((10 * (24000 : ℕ) : ℚ) / ((1001 : ℕ) : ℚ))).toNat :=
  get_max_chunk_size_round 24000 1001 (by decide) (by decide)

/-! ## Chroma-location resolution (src/ffms.rs get_chroma_loc) -/

/-- Prefix test on character lists, modelling str::starts_with. -/
def startsWithL : List Char → List Char → Bool
  | _, [] => true
  | [], _ :: _ => false
  | c :: s, p :: ps => c == p && startsWithL s ps

/-- The parse of the ffprobe standard output in get_chroma_loc: a line
starting chroma_location=left yields 1, one starting
chroma_location=topleft yields 3, anything else (or a failed command,
modelled as none) yields nothing. -/
def probe_parse (probeOut : Option (List Char)) : Option Int :=
  match probeOut with
  | some text =>
    if startsWithL text "chroma_location=left".toList then some 1
    else if startsWithL text "chroma_location=topleft".toList then some 3
    else none
  | none => none

/-- Model of get_chroma_loc of ffms.rs: the ffprobe side-channel result
takes precedence; the per-frame value is used only when the side channel
yields nothing and the per-frame value is nonzero; finally 1 maps to 1,
3 maps to 2 and everything else to none. -/
def get_chroma_loc (probeOut : Option (List Char)) (frame_chroma : Int) :
    Option Int :=
  let ffmpeg_value := (probe_parse probeOut).orElse
    (fun _ => if frame_chroma ≠ 0 then some frame_chroma else none)
  match ffmpeg_value with
  | some 1 => some 1
  | some 3 => some 2
  | _ => none

/-- The resolution rule as the claim words it: the side-channel result
overrides the per-frame value only when the per-frame value is
unspecified (0); then the same final mapping is applied. -/
def get_chroma_loc_claimed (probeOut : Option (List Char))
    (frame_chroma : Int) : Option Int :=
  let resolved := if frame_chroma = 0 then probe_parse probeOut
    else some frame_chroma
  match resolved with
  | some 1 => some 1
  | some 3 => some 2
  | _ => none

/-- C8 counterexample: with a side-channel answer of left and a per-frame
value of 3 (topleft, hence specified), the code returns 1 (the
side-channel wins) while the claimed rule returns 2 (the frame value
wins). -/
theorem get_chroma_loc_override_cex :
    get_chroma_loc (some "chroma_location=left".toList) 3 = some 1 ∧
    get_chroma_loc_claimed (some "chroma_location=left".toList) 3 = some 2 ∧
    get_chroma_loc (some "chroma_location=left".toList) 3 ≠
      get_chroma_loc_claimed (some "chroma_location=left".toList) 3 := by
  refine ⟨by decide, by decide, by decide⟩

theorem startsWithL_append_self : ∀ (p t : List Char),
    startsWithL (p ++ t) p = true := by
  intro p
  induction p with
  | nil =>
    intro t
    cases t <;> rfl
  | cons c cs ih =>
    intro t
    simp [startsWithL, ih t]

theorem startsWithL_append_of_le : ∀ (p s t : List Char),
    p.length ≤ s.length → startsWithL (s ++ t) p = startsWithL s p := by
  intro p
  induction p with
  | nil =>
    intro s t _
    cases s <;> cases t <;> rfl
  | cons pc pr ih =>
    intro s t h
    cases s with
    | nil => simp at h
    | cons sc sr =>
      show (sc == pc && startsWithL (sr ++ t) pr) = (sc == pc && startsWithL sr pr)
      rw [ih sr t (by simpa using h)]

/-- C8 amended: the side-channel (ffprobe) answer takes precedence
unconditionally; the per-frame value is consulted only when the side
channel yields nothing, and then only if nonzero; the final mapping sends
left (1) to 1 and topleft (3) to 2, and anything else to none. -/
theorem get_chroma_loc_amended :
    (∀ (t : List Char) (fc : Int),
      get_chroma_loc (some ("chroma_location=left".toList ++ t)) fc = some 1) ∧
    (∀ (t : List Char) (fc : Int),
      get_chroma_loc (some ("chroma_location=topleft".toList ++ t)) fc = some 2) ∧
    (∀ (po : Option (List Char)) (fc : Int), probe_parse po = none →
      get_chroma_loc po fc =
        if fc = 1 then some 1 else if fc = 3 then some 2 else none) := by
  refine ⟨?_, ?_, ?_⟩
  · intro t fc
    simp only [get_chroma_loc, probe_parse]
    rw [startsWithL_append_self]
    simp [Option.orElse]
  · intro t fc
    have hnl : startsWithL ("chroma_location=topleft".toList ++ t)
        "chroma_location=left".toList = false := by
      rw [startsWithL_append_of_le _ _ t (by decide)]
      decide
    simp only [get_chroma_loc, probe_parse]
    rw [hnl, startsWithL_append_self]
    simp [Option.orElse]
  · intro po fc hpo
    simp only [get_chroma_loc, hpo, Option.orElse]
    by_cases h1 : fc = 1
    · subst h1; simp
    · by_cases h3 : fc = 3
      · subst h3; simp
      · by_cases h0 : fc = 0
        · subst h0; simp
        · simp only [if_neg h0, if_neg h1, if_neg h3]
          simp [h0, h1, h3]

/-- Witness for C8: side channel yields nothing, frame value topleft. -/
theorem get_chroma_loc_amended_witness :
    get_chroma_loc (some "x".toList) 3 = some 2 := by
  have h := get_chroma_loc_amended.2.2 (some "x".toList) 3 (by decide)
  simpa using h

/-! ## Argument handling (src/main.rs) -/

/-- Rust str::trim on a character list (whitespace stripped from both
ends). -/
def trimChars (s : List Char) : List Char :=
  ((s.dropWhile Char.isWhitespace).reverse.dropWhile Char.isWhitespace).reverse

/-- Model of the worker/params portion of apply_defaults of main.rs: a
zero worker count is replaced by a host-parallelism default and the
params string gets the lp prefix; a nonzero worker count leaves both
untouched.  (The output/scene-file path defaulting of the source touches
only other fields and the filesystem.) -/
def apply_defaults (worker : Nat) (params : List Char) (threads : Nat) :
    Nat × List Char :=
  if worker = 0 then
    (if 32 ≤ threads then 8
     else if 24 ≤ threads then 6
     else if 16 ≤ threads then 4
     else if 12 ≤ threads then 3
     else if 8 ≤ threads then 2
     else 1,
     trimChars ("--lp 3 ".toList ++ params))
  else (worker, params)

theorem trimChars_lp3 (p : List Char)
    (h : (p.getLastD 'x').isWhitespace = false) :
    trimChars ("--lp 3 ".toList ++ p) =
      if p.isEmpty then "--lp 3".toList else "--lp 3 ".toList ++ p := by
  rcases List.eq_nil_or_concat p with hp | ⟨q, a, hp⟩
  · subst hp
    decide
  · rw [List.concat_eq_append] at hp
    subst hp
    rw [List.getLastD_concat] at h
    rw [if_neg (by simp)]
    unfold trimChars
    have h1 : ("--lp 3 ".toList ++ (q ++ [a])) =
        '-' :: ("-lp 3 ".toList ++ (q ++ [a])) := rfl
    rw [h1, List.dropWhile_cons, if_neg (by decide)]
    have h2 : '-' :: ("-lp 3 ".toList ++ (q ++ [a])) =
        ("--lp 3 ".toList ++ q) ++ [a] := by simp
    rw [h2, List.reverse_append]
    have h3 : ([a].reverse ++ ("--lp 3 ".toList ++ q).reverse).dropWhile
        Char.isWhitespace = [a].reverse ++ ("--lp 3 ".toList ++ q).reverse := by
      simp only [List.reverse_cons, List.reverse_nil, List.nil_append,
        List.cons_append, List.dropWhile_cons]
      rw [if_neg (by simp [h])]
    rw [h3, ← List.reverse_append, List.reverse_reverse, List.append_assoc]

/-- C9: when the worker count is 0, apply_defaults picks the tabulated
default per host thread count and prepends the lp flag to the params
string; when it is at least 1 both are left unchanged. -/
theorem apply_defaults_spec :
    (∀ (t : Nat) (p : List Char), 32 ≤ t → (apply_defaults 0 p t).1 = 8) ∧
    (∀ (t : Nat) (p : List Char), 24 ≤ t → t ≤ 31 → (apply_defaults 0 p t).1 = 6) ∧
    (∀ (t : Nat) (p : List Char), 16 ≤ t → t ≤ 23 → (apply_defaults 0 p t).1 = 4) ∧
    (∀ (t : Nat) (p : List Char), 12 ≤ t → t ≤ 15 → (apply_defaults 0 p t).1 = 3) ∧
    (∀ (t : Nat) (p : List Char), 8 ≤ t → t ≤ 11 → (apply_defaults 0 p t).1 = 2) ∧
    (∀ (t : Nat) (p : List Char), t ≤ 7 → (apply_defaults 0 p t).1 = 1) ∧
    (∀ (t : Nat) (p : List Char), (p.getLastD 'x').isWhitespace = false →
      (apply_defaults 0 p t).2 =
        if p.isEmpty then "--lp 3".toList else "--lp 3 ".toList ++ p) ∧
    (∀ (w t : Nat) (p : List Char), 1 ≤ w → apply_defaults w p t = (w, p)) := by
  refine ⟨?_, ?_, ?_, ?_, ?_, ?_, ?_, ?_⟩
  · intro t p h
    unfold apply_defaults
    rw [if_pos rfl]
    show (if 32 ≤ t then 8 else if 24 ≤ t then 6 else if 16 ≤ t then 4
      else if 12 ≤ t then 3 else if 8 ≤ t then 2 else 1) = 8
    rw [if_pos h]
  · intro t p h1 h2
    unfold apply_defaults
    rw [if_pos rfl]
    show (if 32 ≤ t then 8 else if 24 ≤ t then 6 else if 16 ≤ t then 4
      else if 12 ≤ t then 3 else if 8 ≤ t then 2 else 1) = 6
    rw [if_neg (by omega), if_pos h1]
  · intro t p h1 h2
    unfold apply_defaults
    rw [if_pos rfl]
    show (if 32 ≤ t then 8 else if 24 ≤ t then 6 else if 16 ≤ t then 4
      else if 12 ≤ t then 3 else if 8 ≤ t then 2 else 1) = 4
    rw [if_neg (by omega), if_neg (by omega), if_pos h1]
  · intro t p h1 h2
    unfold apply_defaults
    rw [if_pos rfl]
    show (if 32 ≤ t then 8 else if 24 ≤ t then 6 else if 16 ≤ t then 4
      else if 12 ≤ t then 3 else if 8 ≤ t then 2 else 1) = 3
    rw [if_neg (by omega), if_neg (by omega), if_neg (by omega), if_pos h1]
  · intro t p h1 h2
    unfold apply_defaults
    rw [if_pos rfl]
    show (if 32 ≤ t then 8 else if 24 ≤ t then 6 else if 16 ≤ t then 4
      else if 12 ≤ t then 3 else if 8 ≤ t then 2 else 1) = 2
    rw [if_neg (by omega), if_neg (by omega), if_neg (by omega),
      if_neg (by omega), if_pos h1]
  · intro t p h
    unfold apply_defaults
    rw [if_pos rfl]
    show (if 32 ≤ t then 8 else if 24 ≤ t then 6 else if 16 ≤ t then 4
      else if 12 ≤ t then 3 else if 8 ≤ t then 2 else 1) = 1
    rw [if_neg (by omega), if_neg (by omega), if_neg (by omega),
      if_neg (by omega), if_neg (by omega)]
  · intro t p h
    unfold apply_defaults
    rw [if_pos rfl]
    exact trimChars_lp3 p h
  · intro w t p hw
    unfold apply_defaults
    rw [if_neg (by omega)]

/-- Witness for C9 at 16 host threads and a nonempty params string. -/
theorem apply_defaults_spec_witness :
    apply_defaults 0 "--tune 0".toList 16 = (4, "--lp 3 --tune 0".toList) := by
  have h1 := apply_defaults_spec.2.2.1 16 "--tune 0".toList (by decide) (by decide)
  have h2 := apply_defaults_spec.2.2.2.2.2.2.1 16 "--tune 0".toList (by decide)
  refine Prod.ext ?_ ?_
  · exact h1
  · rw [h2]
    decide

/-- Model of the token quoting of save_args of main.rs: a token holding a
space is wrapped in double quotes. -/
def quote_arg (arg : List Char) : List Char :=
  if arg.contains ' ' then '"' :: (arg ++ ['"']) else arg

/-- Vec::join with a single-space separator. -/
def joinSpace : List (List Char) → List Char
  | [] => []
  | [a] => a
  | a :: rest => a ++ ' ' :: joinSpace rest

/-- Model of the cmd.txt line written by save_args of main.rs. -/
def save_args_line (cmd : List (List Char)) : List Char :=
  joinSpace (cmd.map quote_arg)

/-- One step of the character loop of parse_quoted_args of main.rs; the
state is (finished args, current token, inside-quotes flag). -/
def pq_step (st : List (List Char) × List Char × Bool) (ch : Char) :
    List (List Char) × List Char × Bool :=
  if ch = '"' then (st.1, st.2.1, !st.2.2)
  else if ch = ' ' ∧ st.2.2 = false then
    if st.2.1.isEmpty then st else (st.1 ++ [st.2.1], [], st.2.2)
  else (st.1, st.2.1 ++ [ch], st.2.2)

/-- The trailing flush of parse_quoted_args. -/
def pq_finish (st : List (List Char) × List Char × Bool) : List (List Char) :=
  if st.2.1.isEmpty then st.1 else st.1 ++ [st.2.1]

/-- Model of parse_quoted_args of main.rs. -/
def parse_quoted_args (cmd_line : List Char) : List (List Char) :=
  pq_finish (cmd_line.foldl pq_step ([], [], false))

theorem foldl_pq_unquoted : ∀ (cs : List Char) (acc : List (List Char))
    (cur : List Char), (∀ c ∈ cs, c ≠ '"' ∧ c ≠ ' ') →
    cs.foldl pq_step (acc, cur, false) = (acc, cur ++ cs, false) := by
  intro cs
  induction cs with
  | nil => intro acc cur _; simp
  | cons c rest ih =>
    intro acc cur h
    have hc := h c (List.mem_cons_self c rest)
    simp only [List.foldl_cons]
    have hstep : pq_step (acc, cur, false) c = (acc, cur ++ [c], false) := by
      simp [pq_step, hc.1, hc.2]
    rw [hstep, ih acc (cur ++ [c]) (fun x hx => h x (List.mem_cons_of_mem c hx))]
    simp

theorem foldl_pq_quoted : ∀ (cs : List Char) (acc : List (List Char))
    (cur : List Char), (∀ c ∈ cs, c ≠ '"') →
    cs.foldl pq_step (acc, cur, true) = (acc, cur ++ cs, true) := by
  intro cs
  induction cs with
  | nil => intro acc cur _; simp
  | cons c rest ih =>
    intro acc cur h
    have hc := h c (List.mem_cons_self c rest)
    simp only [List.foldl_cons]
    have hstep : pq_step (acc, cur, true) c = (acc, cur ++ [c], true) := by
      simp [pq_step, hc]
    rw [hstep, ih acc (cur ++ [c]) (fun x hx => h x (List.mem_cons_of_mem c hx))]
    simp

theorem foldl_pq_token (tok : List Char) (acc : List (List Char))
    (hq : '"' ∉ tok) :
    (quote_arg tok).foldl pq_step (acc, [], false) = (acc, tok, false) := by
  unfold quote_arg
  by_cases hs : tok.contains ' '
  · rw [if_pos hs]
    simp only [List.foldl_cons]
    have hopen : pq_step (acc, [], false) '"' = (acc, [], true) := by
      simp [pq_step]
    rw [hopen, List.foldl_append]
    rw [foldl_pq_quoted tok acc [] (fun c hc => by rintro rfl; exact hq hc)]
    simp [pq_step]
  · rw [if_neg hs]
    have hsp : ' ' ∉ tok := by
      intro hmem
      exact hs (List.contains_iff_exists_mem_beq.mpr ⟨' ', hmem, by decide⟩)
    rw [foldl_pq_unquoted tok acc []
      (fun c hc => ⟨by rintro rfl; exact hq hc, by rintro rfl; exact hsp hc⟩)]
    simp

theorem parse_run : ∀ (cmd : List (List Char)) (acc : List (List Char)),
    (∀ t ∈ cmd, t ≠ [] ∧ '"' ∉ t) →
    pq_finish ((joinSpace (cmd.map quote_arg)).foldl pq_step (acc, [], false)) =
      acc ++ cmd := by
  intro cmd
  induction cmd with
  | nil => intro acc _; simp [joinSpace, pq_finish]
  | cons t rest ih =>
    intro acc h
    have ht := h t (List.mem_cons_self t rest)
    cases rest with
    | nil =>
      simp only [List.map_cons, List.map_nil, joinSpace]
      rw [foldl_pq_token t acc ht.2]
      simp [pq_finish, ht.1]
    | cons r rs =>
      simp only [List.map_cons, joinSpace]
      rw [List.foldl_append, foldl_pq_token t acc ht.2]
      simp only [List.foldl_cons]
      have hsp : pq_step (acc, t, false) ' ' = (acc ++ [t], [], false) := by
        simp [pq_step, ht.1]
      rw [hsp]
      have hrest : ∀ x ∈ r :: rs, x ≠ [] ∧ '"' ∉ x :=
        fun x hx => h x (List.mem_cons_of_mem t hx)
      have := ih (acc ++ [t]) hrest
      simp only [List.map_cons] at this
      rw [this]
      simp

/-- C10: parsing the cmd.txt serialization of an argument vector whose
tokens are nonempty and free of double quotes returns exactly the
original vector, so a resume run replays the original argv. -/
theorem save_parse_roundtrip (cmd : List (List Char))
    (h : ∀ t ∈ cmd, t ≠ [] ∧ '"' ∉ t) :
    parse_quoted_args (save_args_line cmd) = cmd := by
  unfold parse_quoted_args save_args_line
  have hp := parse_run cmd [] h
  simpa using hp

/-- Witness for C10 on a concrete argv holding a space-bearing token. -/
theorem save_parse_roundtrip_witness :
    parse_quoted_args (save_args_line
      ["xav".toList, "-p".toList, "--lp 3 --tune 0".toList, "i.mkv".toList]) =
      ["xav".toList, "-p".toList, "--lp 3 --tune 0".toList, "i.mkv".toList] :=
  save_parse_roundtrip
    ["xav".toList, "-p".toList, "--lp 3 --tune 0".toList, "i.mkv".toList]
    (by decide)

end Xav
